import Mathlib

/-!
Shallow embedding of `src/site_404_comparitor/main.py`.

The program crawls an original web site by recursively following same-host
hyperlinks, caches every fetched page on disk, and then compares the HTTP
status code of every discovered path against a target host.

Modelling conventions:
* `pathlib.PurePosixPath` values are modelled by `PPath`: an absolute flag
  plus the list of path segments.  Parsing a string collapses duplicate
  separators and single-dot segments (as `pathlib` does) but keeps `..`
  segments (as `pathlib` does).
* The furl library call `href.path.normalize()` is modelled by
  `furlNormalize`, which follows `posixpath.normpath` (resolving `.` and
  `..` segments) and keeps a trailing slash for directory-like paths, with
  the leading-double-slash fixup present in the furl source.
* HTML parsing by BeautifulSoup and URL-reference parsing by furl are
  external libraries: a fetched body is modelled as the list of its anchor
  elements, each carrying the already-parsed href reference (optional host
  and path string), which is exactly the data the extraction code reads.
* The network (`httpx.get`) is modelled as an oracle `Net` mapping a URL to
  `Option Response`; `none` models the client raising an exception.
* The on-disk cache is modelled as an association list from URL to
  `Artifact`.  The real key is the sha256 hex digest of the canonical URL
  text; the digest is deterministic and collision resistance is not relied
  upon, so the key is modelled by the URL value itself.  An artifact is
  either a valid serialized page or corrupt bytes (on which `pickle.load`
  raises).
* Fallible Python code (statements that can raise) is modelled with
  `Except PyErr`; state (disk contents, and an instrumentation log of the
  network fetches performed) is threaded explicitly and survives errors.
* The recursion of `process_page` is modelled with an explicit depth bound
  `fuel`; a run of the Python program corresponds to any sufficiently large
  bound, and safety invariants below hold for every bound.
-/

namespace Site404

/-- Model of `pathlib.PurePosixPath`: whether the path is absolute plus its
segments.  Parsing drops empty and `.` segments; `..` segments are kept. -/
structure PPath where
  absolute : Bool
  segments : List String
deriving DecidableEq, Repr

/-- Splitting a character list on a separator character, the semantics of
`str.split("/")`.  Defined structurally so the kernel can evaluate it
(the corresponding core string functions use well-founded recursion). -/
def splitOnChar (c : Char) : List Char → List (List Char)
  | [] => [[]]
  | x :: xs =>
    match splitOnChar c xs with
    | [] => [[]]
    | g :: gs => if x = c then [] :: g :: gs else (x :: g) :: gs

/-- Joining character lists with a separator character, the semantics of
`"/".join(...)`. -/
def joinChar (c : Char) : List (List Char) → List Char
  | [] => []
  | [g] => g
  | g :: gs => g ++ c :: joinChar c gs

/-- Segment list of a raw path string, as `pathlib` parses it: split on
`/`, dropping empty segments (duplicate separators) and `.` segments. -/
def parseSegs (s : String) : List String :=
  ((splitOnChar '/' s.data).map String.mk).filter fun seg => seg != "" && seg != "."

/-- Model of `pathlib.Path(s)` for a POSIX path string. -/
def parsePath (s : String) : PPath :=
  { absolute := s.data.head? == some '/', segments := parseSegs s }

/-- Model of `str(p)` for a `pathlib` path: `"."` for the empty relative
path, otherwise the segments joined by `/` with a leading `/` when
absolute. -/
def PPath.render (p : PPath) : String :=
  if p.absolute then String.mk ('/' :: joinChar '/' (p.segments.map String.data))
  else if p.segments = [] then "."
  else String.mk (joinChar '/' (p.segments.map String.data))

/-- Model of the `pathlib` `/` operator (`self.path / other`): an absolute
right operand replaces the left one, a relative right operand is appended
segment by segment.  `..` segments are NOT resolved, exactly as in
`pathlib`. -/
def PPath.join (p q : PPath) : PPath :=
  if q.absolute then q
  else { absolute := p.absolute, segments := p.segments ++ q.segments }

/-- Stack step of `posixpath.normpath`: walk the segments, popping on `..`
(except that `..` is kept at the top level of a relative path and dropped
at the root of an absolute path). -/
def normSegsAux (absolute : Bool) : List String → List String → List String
  | stack, [] => stack.reverse
  | stack, seg :: rest =>
    if seg = ".." then
      match stack with
      | [] => normSegsAux absolute (if absolute then [] else [".."]) rest
      | top :: below =>
        if top = ".." then normSegsAux absolute (".." :: stack) rest
        else normSegsAux absolute below rest
    else normSegsAux absolute (seg :: stack) rest

/-- Normalized segments of a path, following `posixpath.normpath`. -/
def normSegs (absolute : Bool) (segs : List String) : List String :=
  normSegsAux absolute [] segs

/-- Model of furl `path.normalize()` followed by `str(...)`: the empty
path is returned untouched, otherwise `posixpath.normpath` is applied, the
trailing slash of a directory-like path is kept, and a leading `//` is
collapsed to `/` (the furl workaround for the normpath double-slash
behaviour). -/
def furlNormalize (s : String) : String :=
  if s = "" then s
  else
    let p := parsePath s
    let core := PPath.render { absolute := p.absolute, segments := normSegs p.absolute p.segments }
    let withSlash := if s.data.getLast? == some '/' then core ++ "/" else core
    match withSlash.data with
    | '/' :: '/' :: _ => String.mk ('/' :: withSlash.data.dropWhile (· = '/'))
    | _ => withSlash

/-- Model of the frozen dataclass `URL`: host, path and scheme, with
`scheme` defaulting to `"https"`.  Equality (and use as a dictionary key)
is componentwise, exactly as for a frozen Python dataclass. -/
structure URL where
  host : String
  path : PPath
  scheme : String := "https"
deriving DecidableEq, Repr

/-- Model of `url.furl.tostr()`: the canonical textual form of a URL. -/
def URL.furlStr (u : URL) : String :=
  u.scheme ++ "://" ++ u.host ++
    (if u.path.absolute then u.path.render else "/" ++ u.path.render)

/-- `URL.set_host`: the source builds `URL(host=host, path=self.path)`,
omitting the scheme, so the scheme of the result is the default. -/
def URL.set_host (u : URL) (host : String) : URL :=
  { host := host, path := u.path }

/-- `URL.join_path`: the source builds `URL(host=self.host, path=self.path
/ other)`, again omitting the scheme. -/
def URL.join_path (u : URL) (other : PPath) : URL :=
  { host := u.host, path := u.path.join other }

/-- The furl-parsed href reference of an anchor: the host it mentions (if
any) and the textual path, i.e. the fields `href.host` and
`str(href.path)` read by `Page.get_urls`. -/
structure HrefRef where
  host : Option String
  path : String
deriving DecidableEq, Repr

/-- An anchor element of a parsed body; `href = none` models an `a` tag
without an href attribute. -/
structure Anchor where
  href : Option HrefRef
deriving DecidableEq, Repr

/-- Model of an `httpx.Response`: status code plus the anchor elements
BeautifulSoup finds in the body. -/
structure Response where
  status_code : Nat
  anchors : List Anchor
deriving DecidableEq, Repr

/-- Model of the dataclass `Page`: owning URL plus response. -/
structure Page where
  url : URL
  response : Response
deriving DecidableEq, Repr

/-- `Page.status_code` property. -/
def Page.status_code (p : Page) : Nat :=
  p.response.status_code

/-- The body of the `for` loop of `Page.get_urls` for one parsed href:
skip it when it names a different host, skip it when its path contains
`@`, otherwise normalize the path and join it onto the page URL. -/
def Page.hrefURL (p : Page) (ref : HrefRef) : Option URL :=
  if ref.host ≠ none ∧ ref.host ≠ some p.url.host then none
  else if ref.path.data.contains '@' then none
  else some (p.url.join_path (parsePath (furlNormalize ref.path)))

/-- Model of `Page.get_urls`: anchors without an href attribute are
skipped, the rest go through the host and `@` filters. -/
def Page.get_urls (p : Page) : List URL :=
  p.response.anchors.filterMap fun a =>
    match a.href with
    | none => none
    | some ref => p.hrefURL ref

/-- An on-disk cache artifact: either a valid serialized page (which
`pickle.load` returns) or corrupt bytes (on which `pickle.load` raises). -/
inductive Artifact where
  | valid (page : Page)
  | corrupt
deriving DecidableEq, Repr

/-- The cache directory contents, keyed by the (collision-free,
deterministic) content address of the URL. -/
abbrev Disk := List (URL × Artifact)

/-- Whether an artifact for the URL exists, and its contents. -/
def diskLookup : Disk → URL → Option Artifact
  | [], _ => none
  | (k, a) :: rest, u => if k = u then some a else diskLookup rest u

/-- `cache_path.unlink()`: remove the artifact of a URL. -/
def diskErase : Disk → URL → Disk
  | [], _ => []
  | (k, a) :: rest, u =>
    if k = u then diskErase rest u else (k, a) :: diskErase rest u

/-- Writing an artifact for a URL (replacing any previous one). -/
def diskWrite (d : Disk) (u : URL) (a : Artifact) : Disk :=
  (u, a) :: diskErase d u

/-- The mutable state a run threads through the page cache: the cache
directory contents plus the list of network fetches performed, in order
(instrumentation for the at-most-once-fetch invariant). -/
structure CacheState where
  disk : Disk
  fetchLog : List URL
deriving DecidableEq, Repr

/-- Exceptions the modelled code can raise: an `httpx` error while
fetching a URL, or a `pickle.load` error on the final cache re-read. -/
inductive PyErr where
  | netError (u : URL)
  | loadError
deriving DecidableEq, Repr

instance {ε α : Type} [DecidableEq ε] [DecidableEq α] : DecidableEq (Except ε α) := fun x y =>
  match x, y with
  | .ok a, .ok b =>
    if h : a = b then isTrue (h ▸ rfl) else isFalse fun hh => h (by cases hh; rfl)
  | .error a, .error b =>
    if h : a = b then isTrue (h ▸ rfl) else isFalse fun hh => h (by cases hh; rfl)
  | .ok _, .error _ => isFalse fun hh => Except.noConfusion hh
  | .error _, .ok _ => isFalse fun hh => Except.noConfusion hh

/-- The network oracle: the response `httpx.get` produces for a URL, or
`none` when the client raises an exception. -/
abbrev Net := URL → Option Response

/-- Module-level `get_page`: fetch the URL and wrap the response in a
`Page` owned by that URL; an `httpx` exception propagates. -/
def get_page (net : Net) (u : URL) : Option Page :=
  (net u).map fun r => { url := u, response := r }

/-- Tail of `PageCache.get_page` once no (valid) artifact is on disk: log
the network fetch, and on success write the artifact and re-read it (the
source opens the file again and unpickles it). -/
def fetchAndStore (net : Net) (c : CacheState) (u : URL) :
    Except PyErr Page × CacheState :=
  let log1 := c.fetchLog ++ [u]
  match get_page net u with
  | none => (.error (.netError u), { disk := c.disk, fetchLog := log1 })
  | some page =>
    let disk2 := diskWrite c.disk u (.valid page)
    match diskLookup disk2 u with
    | some (.valid p) => (.ok p, { disk := disk2, fetchLog := log1 })
    | _ => (.error .loadError, { disk := disk2, fetchLog := log1 })

/-- Model of `PageCache.get_page`: a valid artifact is returned directly;
a corrupt artifact (unpickling raises) is deleted first; in both remaining
cases the URL is fetched, stored and re-read. -/
def PageCache.get_page (net : Net) (c : CacheState) (u : URL) :
    Except PyErr Page × CacheState :=
  match diskLookup c.disk u with
  | some (.valid p) => (.ok p, c)
  | some .corrupt =>
    fetchAndStore net { disk := diskErase c.disk u, fetchLog := c.fetchLog } u
  | none => fetchAndStore net c u

/-- The `pages` dictionary of a `Site`, in insertion order (Python
dictionaries iterate in insertion order). -/
abbrev Pages := List (URL × Page)

/-- Dictionary membership/lookup for the page map. -/
def pagesLookup : Pages → URL → Option Page
  | [], _ => none
  | (k, p) :: rest, u => if k = u then some p else pagesLookup rest u

/-- Dictionary assignment `site.pages[key] = page`: replace in place when
the key is present, append otherwise (preserving iteration order). -/
def pagesInsert : Pages → URL → Page → Pages
  | [], u, p => [(u, p)]
  | (k, v) :: rest, u, p =>
    if k = u then (k, p) :: rest else (k, v) :: pagesInsert rest u p

/-- The `for` loop of `process_page` over the extracted candidate URLs:
skip a candidate already present in the page map, otherwise fetch it
through the cache, insert it under the url field of the fetched page, and
recurse (through `descend`) into the new page before continuing with the
remaining candidates.  An exception raised anywhere propagates. -/
def processStep (net : Net)
    (descend : Pages → Page → CacheState → Except PyErr Unit × Pages × CacheState) :
    List URL → Pages → CacheState → Except PyErr Unit × Pages × CacheState
  | [], pages, c => (.ok (), pages, c)
  | u :: rest, pages, c =>
    if (pagesLookup pages u).isSome then processStep net descend rest pages c
    else
      match PageCache.get_page net c u with
      | (.error e, c1) => (.error e, pages, c1)
      | (.ok newPage, c1) =>
        let pages1 := pagesInsert pages newPage.url newPage
        match descend pages1 newPage c1 with
        | (.error e, pages2, c2) => (.error e, pages2, c2)
        | (.ok _, pages2, c2) => processStep net descend rest pages2 c2

/-- Model of `process_page`: iterate over `page.get_urls()`, recursing
into each newly fetched page.  `fuel` bounds the recursion depth (the
Python recursion has no bound; a terminating run of the source
corresponds to any sufficiently large bound, and the invariants proved
below hold for every bound). -/
def process_page (net : Net) :
    Nat → Pages → Page → CacheState → Except PyErr Unit × Pages × CacheState
  | 0, pages, _, c => (.ok (), pages, c)
  | fuel + 1, pages, page, c =>
    processStep net (process_page net fuel) page.get_urls pages c

/-- Model of `walk_site`: fetch the root through the cache, record it in
the page map, then expand it.  `main` always starts from an empty page
map. -/
def walk_site (net : Net) (fuel : Nat) (root : URL) (c : CacheState) :
    Except PyErr Unit × Pages × CacheState :=
  match PageCache.get_page net c root with
  | (.error e, c1) => (.error e, [], c1)
  | (.ok rootPage, c1) =>
    process_page net fuel (pagesInsert [] rootPage.url rootPage) rootPage c1

/-- One CSV row emitted by the comparison loop of `main`. -/
structure Row where
  original : String
  target : String
  original_status_code : Nat
  target_status_code : Nat
  original_path : String
  target_path : String
deriving DecidableEq, Repr

/-- The comparison loop of `main` (lines 175-187): for every entry of the
walked page map, in iteration order, derive the target URL with
`set_host`, fetch it through the same page cache, and emit one row; an
`httpx` exception there propagates out of `main`. -/
def compareRows (net : Net) (targetHost : String) :
    Pages → CacheState → Except PyErr (List Row) × CacheState
  | [], c => (.ok [], c)
  | (_, page) :: rest, c =>
    let target_url := page.url.set_host targetHost
    match PageCache.get_page net c target_url with
    | (.error e, c1) => (.error e, c1)
    | (.ok target_page, c1) =>
      match compareRows net targetHost rest c1 with
      | (.error e, c2) => (.error e, c2)
      | (.ok rows, c2) =>
        (.ok ({ original := page.url.furlStr
                target := target_page.url.furlStr
                original_status_code := page.status_code
                target_status_code := target_page.status_code
                original_path := page.url.path.render
                target_path := target_page.url.path.render } :: rows), c2)

/-! Concrete test fixtures used by the claims: a two-page cyclic site
(`/` and `/b` linking to each other), a site with a broken link, a page
whose anchors must all be filtered out, and a one-page comparison run. -/

/-- Host of the synthetic original site. -/
def hostEx : String := "example.com"

/-- URL of page A, the root `/` of the synthetic site. -/
def urlA : URL := { host := hostEx, path := parsePath "/" }

/-- URL of page B, `/b` on the synthetic site. -/
def urlB : URL := { host := hostEx, path := parsePath "/b" }

/-- An anchor with a host-less href, pointing at a path on the same
host. -/
def anchorTo (p : String) : Anchor := { href := some { host := none, path := p } }

/-- Body of page A, first link order: a link to `/b`, then a link back to
`/` itself. -/
def respA : Response := { status_code := 200, anchors := [anchorTo "/b", anchorTo "/"] }

/-- Body of page A, second link order: the self link first, then the link
to `/b`. -/
def respA2 : Response := { status_code := 200, anchors := [anchorTo "/", anchorTo "/b"] }

/-- Body of page B: a single link back to `/`. -/
def respB : Response := { status_code := 200, anchors := [anchorTo "/"] }

/-- Page A as fetched from the network. -/
def pageA : Page := { url := urlA, response := respA }

/-- The cyclic two-page site, first link order: A links to B (and to
itself), B links back to A. -/
def netAB : Net := fun u => if u = urlA then some respA else if u = urlB then some respB else none

/-- The cyclic two-page site with the links of A in the other order. -/
def netBA : Net := fun u => if u = urlA then some respA2 else if u = urlB then some respB else none

/-- A fresh cache state: empty cache directory, nothing fetched yet. -/
def cache0 : CacheState := { disk := [], fetchLog := [] }

/-- A cache state whose only artifact, the one of page A, is corrupt. -/
def corruptCache : CacheState := { disk := [(urlA, .corrupt)], fetchLog := [] }

/-- A discovered URL whose fetch fails (the network oracle raises). -/
def urlBad : URL := { host := hostEx, path := parsePath "/bad" }

/-- Root body of the broken site: one link, to `/bad`. -/
def respRoot : Response := { status_code := 200, anchors := [anchorTo "/bad"] }

/-- Site whose root fetch succeeds but whose only discovered link
cannot be fetched. -/
def netBroken : Net := fun u => if u = urlA then some respRoot else none

/-- A page whose anchors must all be filtered out: one without an href
attribute, one naming a different host, and one whose path embeds a
mailto-style `@`. -/
def pageBad : Page :=
  { url := urlA
    response :=
      { status_code := 200
        anchors :=
          [ { href := none },
            { href := some { host := some "otherhost.example", path := "/x" } },
            { href := some { host := none, path := "/contact/foo@bar" } } ] } }

/-- A page with a single extractable link to `/b`. -/
def pageGood : Page :=
  { url := urlA, response := { status_code := 200, anchors := [anchorTo "/b"] } }

/-- Target host of the comparison run. -/
def targetHostEx : String := "target.example"

/-- The URL of page A rehosted on the target host. -/
def urlAT : URL := { host := targetHostEx, path := parsePath "/" }

/-- Target response: a 404 with no links. -/
def resp404 : Response := { status_code := 404, anchors := [] }

/-- Network oracle of the comparison run: only the rehosted root exists,
and it answers 404. -/
def netCmp : Net := fun u => if u = urlAT then some resp404 else none

/-- A walked one-page site, input of the comparison run. -/
def pagesCmp : Pages := [(urlA, pageA)]

/-- The single row the comparison run emits. -/
def rowA : Row :=
  { original := "https://example.com/", target := "https://target.example/",
    original_status_code := 200, target_status_code := 404,
    original_path := "/", target_path := "/" }

/-! Invariants. -/

/-- The at-most-once-fetch invariant of a cache state: the log of network
fetches performed has no duplicates, and every URL fetched so far has a
valid artifact on disk (so it will never be fetched again). -/
def CInv (c : CacheState) : Prop :=
  c.fetchLog.Nodup ∧ ∀ u ∈ c.fetchLog, ∃ p, diskLookup c.disk u = some (.valid p)

/-- Every valid artifact on disk was written by `PageCache.get_page` for
the same URL value: the artifact stored under the key of `u` holds a page
whose url field is `u`. -/
def DiskWF (d : Disk) : Prop :=
  ∀ u p, diskLookup d u = some (.valid p) → p.url = u

/-- Every key of a page map equals the url field of the page it maps
to. -/
def PagesWF (ps : Pages) : Prop :=
  ∀ kp ∈ ps, kp.1 = kp.2.url

/-! Helper lemmas about the disk association list. -/

theorem diskLookup_erase (d : Disk) (u v : URL) :
    diskLookup (diskErase d u) v = if v = u then none else diskLookup d v := by
  induction d with
  | nil => simp [diskErase, diskLookup]
  | cons kv rest ih =>
    obtain ⟨k, a⟩ := kv
    by_cases hk : k = u
    · subst hk
      rw [show diskErase ((k, a) :: rest) k = diskErase rest k by simp [diskErase], ih]
      by_cases hv : v = k
      · simp [hv]
      · have hkv : ¬(k = v) := fun h => hv h.symm
        simp [hv, diskLookup, hkv]
    · rw [show diskErase ((k, a) :: rest) u = (k, a) :: diskErase rest u by simp [diskErase, hk]]
      by_cases hkv : k = v
      · have hvu : ¬(v = u) := fun h => hk (hkv.trans h)
        simp [diskLookup, hkv, hvu]
      · simp [diskLookup, hkv, ih]

theorem diskLookup_write (d : Disk) (u v : URL) (a : Artifact) :
    diskLookup (diskWrite d u a) v = if v = u then some a else diskLookup d v := by
  rw [diskWrite]
  by_cases h : u = v
  · subst h; simp [diskLookup]
  · have h2 : ¬(v = u) := fun hh => h hh.symm
    simp [diskLookup, h, h2, diskLookup_erase]

/-! Helper lemmas about `PageCache.get_page`: its value and its effect on
the cache state in each of the three cases of the source (valid artifact,
corrupt artifact, no artifact), and the facts shared by all cases. -/

theorem fetchAndStore_of_netFail (net : Net) (c : CacheState) (u : URL)
    (h : net u = none) :
    fetchAndStore net c u =
      (.error (.netError u), { disk := c.disk, fetchLog := c.fetchLog ++ [u] }) := by
  simp [fetchAndStore, get_page, h]

theorem fetchAndStore_of_netOk (net : Net) (c : CacheState) (u : URL) (r : Response)
    (h : net u = some r) :
    fetchAndStore net c u =
      (.ok { url := u, response := r },
       { disk := diskWrite c.disk u (.valid { url := u, response := r }),
         fetchLog := c.fetchLog ++ [u] }) := by
  simp [fetchAndStore, get_page, h, diskLookup_write]

theorem get_page_of_hit (net : Net) (c : CacheState) (u : URL) (p : Page)
    (h : diskLookup c.disk u = some (.valid p)) :
    PageCache.get_page net c u = (.ok p, c) := by
  simp [PageCache.get_page, h]

theorem get_page_of_corrupt (net : Net) (c : CacheState) (u : URL)
    (h : diskLookup c.disk u = some .corrupt) :
    PageCache.get_page net c u =
      fetchAndStore net { disk := diskErase c.disk u, fetchLog := c.fetchLog } u := by
  simp [PageCache.get_page, h]

theorem get_page_of_miss (net : Net) (c : CacheState) (u : URL)
    (h : diskLookup c.disk u = none) :
    PageCache.get_page net c u = fetchAndStore net c u := by
  simp [PageCache.get_page, h]

/-- A fetch through the cache preserves the at-most-once invariant: the
fetch log stays duplicate-free in every outcome, and when the call
returns normally every logged URL again has a valid artifact. -/
theorem get_page_CInv (net : Net) (c : CacheState) (u : URL) (h : CInv c) :
    (PageCache.get_page net c u).2.fetchLog.Nodup ∧
      (∀ p, (PageCache.get_page net c u).1 = .ok p →
        CInv (PageCache.get_page net c u).2) := by
  have hnotLogged : (∀ a, diskLookup c.disk u = some a → a ≠ .corrupt) ∨ u ∉ c.fetchLog := by
    by_cases hu : u ∈ c.fetchLog
    · left
      intro a ha hcor
      obtain ⟨p, hp⟩ := h.2 u hu
      rw [ha] at hp
      cases hcor ▸ hp
    · right; exact hu
  cases hd : diskLookup c.disk u with
  | some a =>
    cases a with
    | valid p => rw [get_page_of_hit net c u p hd]; exact ⟨h.1, fun _ _ => h⟩
    | corrupt =>
      have hu : u ∉ c.fetchLog := by
        rcases hnotLogged with hval | hu
        · exact absurd rfl (hval _ hd)
        · exact hu
      rw [get_page_of_corrupt net c u hd]
      have hnodup : (c.fetchLog ++ [u]).Nodup := by
        simp [List.nodup_append, h.1, hu]
      cases hn : net u with
      | none =>
        rw [fetchAndStore_of_netFail net _ u hn]
        exact ⟨hnodup, fun p hp => by cases hp⟩
      | some r =>
        rw [fetchAndStore_of_netOk net _ u r hn]
        refine ⟨hnodup, fun p _ => ⟨hnodup, ?_⟩⟩
        intro v hv
        simp only [diskLookup_write]
        by_cases hvu : v = u
        · exact ⟨{ url := u, response := r }, by simp [hvu]⟩
        · obtain hv2 : v ∈ c.fetchLog := by
            rcases List.mem_append.mp hv with h2 | h2
            · exact h2
            · simp at h2; exact absurd h2 hvu
          obtain ⟨p2, hp2⟩ := h.2 v hv2
          refine ⟨p2, ?_⟩
          simp [hvu, diskLookup_erase, hp2]
  | none =>
    have hu : u ∉ c.fetchLog := by
      by_cases hu : u ∈ c.fetchLog
      · obtain ⟨p, hp⟩ := h.2 u hu
        rw [hd] at hp; cases hp
      · exact hu
    rw [get_page_of_miss net c u hd]
    have hnodup : (c.fetchLog ++ [u]).Nodup := by
      simp [List.nodup_append, h.1, hu]
    cases hn : net u with
    | none =>
      rw [fetchAndStore_of_netFail net c u hn]
      exact ⟨hnodup, fun p hp => by cases hp⟩
    | some r =>
      rw [fetchAndStore_of_netOk net c u r hn]
      refine ⟨hnodup, fun p _ => ⟨hnodup, ?_⟩⟩
      intro v hv
      simp only [diskLookup_write]
      by_cases hvu : v = u
      · exact ⟨{ url := u, response := r }, by simp [hvu]⟩
      · obtain hv2 : v ∈ c.fetchLog := by
          rcases List.mem_append.mp hv with h2 | h2
          · exact h2
          · simp at h2; exact absurd h2 hvu
        obtain ⟨p2, hp2⟩ := h.2 v hv2
        exact ⟨p2, by simp [hvu, hp2]⟩

/-- Erasing an artifact preserves the artifact/URL coherence of the
disk. -/
theorem diskErase_DiskWF (d : Disk) (u : URL) (h : DiskWF d) :
    DiskWF (diskErase d u) := by
  intro v p hv
  rw [diskLookup_erase] at hv
  by_cases hvu : v = u
  · simp [hvu] at hv
  · exact h v p (by simpa [hvu] using hv)

/-- A fetch through the cache preserves artifact/URL coherence of the
disk, and under that coherence the returned page is owned by the
requested URL. -/
theorem get_page_DiskWF (net : Net) (c : CacheState) (u : URL) (h : DiskWF c.disk) :
    DiskWF (PageCache.get_page net c u).2.disk ∧
      (∀ p, (PageCache.get_page net c u).1 = .ok p → p.url = u) := by
  cases hd : diskLookup c.disk u with
  | some a =>
    cases a with
    | valid p =>
      rw [get_page_of_hit net c u p hd]
      exact ⟨h, fun q hq => by cases hq; exact h u p hd⟩
    | corrupt =>
      rw [get_page_of_corrupt net c u hd]
      have herase : DiskWF (diskErase c.disk u) := diskErase_DiskWF c.disk u h
      cases hn : net u with
      | none =>
        rw [fetchAndStore_of_netFail net _ u hn]
        exact ⟨herase, fun p hp => by cases hp⟩
      | some r =>
        rw [fetchAndStore_of_netOk net _ u r hn]
        refine ⟨?_, fun p hp => by cases hp; rfl⟩
        intro v p hv
        simp only [diskLookup_write] at hv
        by_cases hvu : v = u
        · simp [hvu] at hv
          simp [← hv, hvu]
        · exact herase v p (by simpa [hvu] using hv)
  | none =>
    rw [get_page_of_miss net c u hd]
    cases hn : net u with
    | none =>
      rw [fetchAndStore_of_netFail net c u hn]
      exact ⟨h, fun p hp => by cases hp⟩
    | some r =>
      rw [fetchAndStore_of_netOk net c u r hn]
      refine ⟨?_, fun p hp => by cases hp; rfl⟩
      intro v p hv
      simp only [diskLookup_write] at hv
      by_cases hvu : v = u
      · simp [hvu] at hv
        simp [← hv, hvu]
      · exact h v p (by simpa [hvu] using hv)

/-- The only exception a cache fetch can raise is the network exception
for the requested URL itself: the final cache re-read never fails (the
artifact was just written), so `loadError` is unreachable. -/
theorem get_page_error (net : Net) (c : CacheState) (u : URL) (e : PyErr)
    (c1 : CacheState) (h : PageCache.get_page net c u = (.error e, c1)) :
    e = .netError u ∧ net u = none := by
  cases hd : diskLookup c.disk u with
  | some a =>
    cases a with
    | valid p => rw [get_page_of_hit net c u p hd] at h; cases h
    | corrupt =>
      rw [get_page_of_corrupt net c u hd] at h
      cases hn : net u with
      | none => rw [fetchAndStore_of_netFail net _ u hn] at h; cases h; exact ⟨rfl, by simp [hn]⟩
      | some r => rw [fetchAndStore_of_netOk net _ u r hn] at h; cases h
  | none =>
    rw [get_page_of_miss net c u hd] at h
    cases hn : net u with
    | none => rw [fetchAndStore_of_netFail net c u hn] at h; cases h; exact ⟨rfl, by simp [hn]⟩
    | some r => rw [fetchAndStore_of_netOk net c u r hn] at h; cases h

/-- The loop of `process_page` preserves the at-most-once invariant,
provided the recursive descent does. -/
theorem processStep_CInv (net : Net)
    (descend : Pages → Page → CacheState → Except PyErr Unit × Pages × CacheState)
    (hd : ∀ pages pg c, CInv c →
      (descend pages pg c).2.2.fetchLog.Nodup ∧
        ((descend pages pg c).1 = .ok () → CInv (descend pages pg c).2.2)) :
    ∀ (urls : List URL) (pages : Pages) (c : CacheState), CInv c →
      (processStep net descend urls pages c).2.2.fetchLog.Nodup ∧
        ((processStep net descend urls pages c).1 = .ok () →
          CInv (processStep net descend urls pages c).2.2) := by
  intro urls
  induction urls with
  | nil =>
    intro pages c h
    exact ⟨h.1, fun _ => h⟩
  | cons u rest ih =>
    intro pages c h
    by_cases hmem : (pagesLookup pages u).isSome = true
    · rw [show processStep net descend (u :: rest) pages c
          = processStep net descend rest pages c by simp [processStep, hmem]]
      exact ih pages c h
    · have hstep := get_page_CInv net c u h
      rcases hgp : PageCache.get_page net c u with ⟨r, c1⟩
      rw [hgp] at hstep
      cases r with
      | error e =>
        rw [show processStep net descend (u :: rest) pages c = (.error e, pages, c1) by
          simp [processStep, hmem, hgp]]
        exact ⟨hstep.1, fun hok => by cases hok⟩
      | ok newPage =>
        have hc1 : CInv c1 := hstep.2 newPage rfl
        have hdprop := hd (pagesInsert pages newPage.url newPage) newPage c1 hc1
        rcases hdd : descend (pagesInsert pages newPage.url newPage) newPage c1
          with ⟨rd, pages2, c2⟩
        rw [hdd] at hdprop
        cases rd with
        | error e =>
          rw [show processStep net descend (u :: rest) pages c = (.error e, pages2, c2) by
            simp [processStep, hmem, hgp, hdd]]
          exact ⟨hdprop.1, fun hok => by cases hok⟩
        | ok uu =>
          have hc2 : CInv c2 := hdprop.2 rfl
          rw [show processStep net descend (u :: rest) pages c
              = processStep net descend rest pages2 c2 by simp [processStep, hmem, hgp, hdd]]
          exact ih pages2 c2 hc2

/-- `process_page` preserves the at-most-once invariant, for every depth
bound. -/
theorem process_page_CInv (net : Net) :
    ∀ (fuel : Nat) (pages : Pages) (page : Page) (c : CacheState), CInv c →
      (process_page net fuel pages page c).2.2.fetchLog.Nodup ∧
        ((process_page net fuel pages page c).1 = .ok () →
          CInv (process_page net fuel pages page c).2.2) := by
  intro fuel
  induction fuel with
  | zero => intro pages page c h; exact ⟨h.1, fun _ => h⟩
  | succ fuel ih =>
    intro pages page c h
    exact processStep_CInv net (process_page net fuel)
      (fun ps pg cc hcc => ih ps pg cc hcc) page.get_urls pages c h

/-- A whole walk preserves the at-most-once invariant: starting from a
state satisfying it, the final fetch log has no duplicate URL. -/
theorem walk_site_fetchLog_Nodup (net : Net) (fuel : Nat) (root : URL)
    (c : CacheState) (h : CInv c) :
    (walk_site net fuel root c).2.2.fetchLog.Nodup := by
  have hstep := get_page_CInv net c root h
  rcases hgp : PageCache.get_page net c root with ⟨r, c1⟩
  rw [hgp] at hstep
  cases r with
  | error e =>
    rw [show walk_site net fuel root c = (.error e, [], c1) by simp [walk_site, hgp]]
    exact hstep.1
  | ok rootPage =>
    have hc1 : CInv c1 := hstep.2 rootPage rfl
    rw [show walk_site net fuel root c
        = process_page net fuel (pagesInsert [] rootPage.url rootPage) rootPage c1 by
      simp [walk_site, hgp]]
    exact (process_page_CInv net fuel _ rootPage c1 hc1).1

/-- Inserting a page under its own url field preserves key/value
coherence of the page map (this is exactly what `process_page` does:
`site.pages[new_page.url] = new_page`). -/
theorem pagesInsert_WF (ps : Pages) (p : Page) (h : PagesWF ps) :
    PagesWF (pagesInsert ps p.url p) := by
  induction ps with
  | nil =>
    intro kp hkp
    simp [pagesInsert] at hkp
    simp [hkp]
  | cons kv rest ih =>
    obtain ⟨k, v⟩ := kv
    by_cases hk : k = p.url
    · rw [show pagesInsert ((k, v) :: rest) p.url p = (k, p) :: rest by
        simp [pagesInsert, hk]]
      intro kp hkp
      rcases List.mem_cons.mp hkp with h1 | h1
      · simp [h1, hk]
      · exact h kp (List.mem_cons_of_mem _ h1)
    · rw [show pagesInsert ((k, v) :: rest) p.url p = (k, v) :: pagesInsert rest p.url p by
        simp [pagesInsert, hk]]
      intro kp hkp
      rcases List.mem_cons.mp hkp with h1 | h1
      · exact h1 ▸ h (k, v) (by simp)
      · exact ih (fun kp2 hkp2 => h kp2 (List.mem_cons_of_mem _ hkp2)) kp h1

/-- The loop of `process_page` preserves disk coherence and page-map
key/value coherence, provided the recursive descent does. -/
theorem processStep_WF (net : Net)
    (descend : Pages → Page → CacheState → Except PyErr Unit × Pages × CacheState)
    (hd : ∀ pages pg c, DiskWF c.disk → PagesWF pages →
      DiskWF (descend pages pg c).2.2.disk ∧ PagesWF (descend pages pg c).2.1) :
    ∀ (urls : List URL) (pages : Pages) (c : CacheState),
      DiskWF c.disk → PagesWF pages →
      DiskWF (processStep net descend urls pages c).2.2.disk ∧
        PagesWF (processStep net descend urls pages c).2.1 := by
  intro urls
  induction urls with
  | nil => intro pages c hdisk hpages; exact ⟨hdisk, hpages⟩
  | cons u rest ih =>
    intro pages c hdisk hpages
    by_cases hmem : (pagesLookup pages u).isSome = true
    · rw [show processStep net descend (u :: rest) pages c
          = processStep net descend rest pages c by simp [processStep, hmem]]
      exact ih pages c hdisk hpages
    · have hstep := get_page_DiskWF net c u hdisk
      rcases hgp : PageCache.get_page net c u with ⟨r, c1⟩
      rw [hgp] at hstep
      cases r with
      | error e =>
        rw [show processStep net descend (u :: rest) pages c = (.error e, pages, c1) by
          simp [processStep, hmem, hgp]]
        exact ⟨hstep.1, hpages⟩
      | ok newPage =>
        have hpages1 : PagesWF (pagesInsert pages newPage.url newPage) :=
          pagesInsert_WF pages newPage hpages
        have hdprop := hd (pagesInsert pages newPage.url newPage) newPage c1 hstep.1 hpages1
        rcases hdd : descend (pagesInsert pages newPage.url newPage) newPage c1
          with ⟨rd, pages2, c2⟩
        rw [hdd] at hdprop
        cases rd with
        | error e =>
          rw [show processStep net descend (u :: rest) pages c = (.error e, pages2, c2) by
            simp [processStep, hmem, hgp, hdd]]
          exact hdprop
        | ok uu =>
          rw [show processStep net descend (u :: rest) pages c
              = processStep net descend rest pages2 c2 by simp [processStep, hmem, hgp, hdd]]
          exact ih pages2 c2 hdprop.1 hdprop.2

/-- `process_page` preserves disk coherence and page-map key/value
coherence, for every depth bound. -/
theorem process_page_WF (net : Net) :
    ∀ (fuel : Nat) (pages : Pages) (page : Page) (c : CacheState),
      DiskWF c.disk → PagesWF pages →
      DiskWF (process_page net fuel pages page c).2.2.disk ∧
        PagesWF (process_page net fuel pages page c).2.1 := by
  intro fuel
  induction fuel with
  | zero => intro pages page c hdisk hpages; exact ⟨hdisk, hpages⟩
  | succ fuel ih =>
    intro pages page c hdisk hpages
    exact processStep_WF net (process_page net fuel)
      (fun ps pg cc hd hp => ih ps pg cc hd hp) page.get_urls pages c hdisk hpages

/-- What must hold of an exception escaping the walk: it is the network
exception of some URL whose fetch failed, and the page map returned holds
no entry (in particular no sentinel page) for that URL.  The cache
re-read exception is unreachable. -/
def ErrSpec (net : Net) (e : PyErr) (st : Pages) : Prop :=
  match e with
  | .netError u => net u = none ∧ pagesLookup st u = none
  | .loadError => False

/-- The loop of `process_page` only fails with a network exception, whose
URL has no page-map entry, provided the recursive descent has the same
property. -/
theorem processStep_error (net : Net)
    (descend : Pages → Page → CacheState → Except PyErr Unit × Pages × CacheState)
    (hd : ∀ pages pg c e st c1, descend pages pg c = (.error e, st, c1) →
      ErrSpec net e st) :
    ∀ (urls : List URL) (pages : Pages) (c : CacheState) (e : PyErr) (st : Pages)
      (c1 : CacheState),
      processStep net descend urls pages c = (.error e, st, c1) → ErrSpec net e st := by
  intro urls
  induction urls with
  | nil => intro pages c e st c1 h; cases h
  | cons u rest ih =>
    intro pages c e st c1 h
    by_cases hmem : (pagesLookup pages u).isSome = true
    · rw [show processStep net descend (u :: rest) pages c
          = processStep net descend rest pages c by simp [processStep, hmem]] at h
      exact ih pages c e st c1 h
    · rcases hgp : PageCache.get_page net c u with ⟨r, cc⟩
      cases r with
      | error e2 =>
        rw [show processStep net descend (u :: rest) pages c = (.error e2, pages, cc) by
          simp [processStep, hmem, hgp]] at h
        simp only [Prod.mk.injEq] at h
        obtain ⟨h1, h2, h3⟩ := h
        injection h1 with h1
        subst h1; subst h2
        obtain ⟨he, hn⟩ := get_page_error net c u e2 cc hgp
        subst he
        exact ⟨hn, Option.not_isSome_iff_eq_none.mp hmem⟩
      | ok newPage =>
        rcases hdd : descend (pagesInsert pages newPage.url newPage) newPage cc
          with ⟨rd, pages2, c2⟩
        cases rd with
        | error e2 =>
          rw [show processStep net descend (u :: rest) pages c = (.error e2, pages2, c2) by
            simp [processStep, hmem, hgp, hdd]] at h
          simp only [Prod.mk.injEq] at h
          obtain ⟨h1, h2, h3⟩ := h
          injection h1 with h1
          subst h1; subst h2
          exact hd _ newPage cc e2 pages2 c2 hdd
        | ok uu =>
          rw [show processStep net descend (u :: rest) pages c
              = processStep net descend rest pages2 c2 by simp [processStep, hmem, hgp, hdd]] at h
          exact ih pages2 c2 e st c1 h

/-- `process_page` only fails with a network exception, whose URL has no
page-map entry, for every depth bound. -/
theorem process_page_error (net : Net) :
    ∀ (fuel : Nat) (pages : Pages) (page : Page) (c : CacheState) (e : PyErr)
      (st : Pages) (c1 : CacheState),
      process_page net fuel pages page c = (.error e, st, c1) → ErrSpec net e st := by
  intro fuel
  induction fuel with
  | zero => intro pages page c e st c1 h; cases h
  | succ fuel ih =>
    intro pages page c e st c1 h
    exact processStep_error net (process_page net fuel)
      (fun ps pg cc e2 st2 c2 h2 => ih ps pg cc e2 st2 c2 h2) page.get_urls pages c e st c1 h

/-- A whole walk only fails with a network exception, and the failed URL
never appears in the returned page map (no sentinel page is recorded). -/
theorem walk_site_error (net : Net) (fuel : Nat) (root : URL) (c : CacheState)
    (e : PyErr) (st : Pages) (c1 : CacheState)
    (h : walk_site net fuel root c = (.error e, st, c1)) : ErrSpec net e st := by
  rcases hgp : PageCache.get_page net c root with ⟨r, cc⟩
  cases r with
  | error e2 =>
    rw [show walk_site net fuel root c = (.error e2, [], cc) by simp [walk_site, hgp]] at h
    simp only [Prod.mk.injEq] at h
    obtain ⟨h1, h2, h3⟩ := h
    injection h1 with h1
    subst h1; subst h2
    obtain ⟨he, hn⟩ := get_page_error net c root e2 cc hgp
    subst he
    exact ⟨hn, rfl⟩
  | ok rootPage =>
    rw [show walk_site net fuel root c
        = process_page net fuel (pagesInsert [] rootPage.url rootPage) rootPage cc by
      simp [walk_site, hgp]] at h
    exact process_page_error net fuel _ rootPage cc e st c1 h

/-! The claims. -/

/-- C1: For every walk of a site graph, each distinct URL is fetched at
most once: the log of network fetches performed during the walk has no
duplicates (membership in the page map is checked before fetching, and
the fetched page is inserted before its links are expanded).  On the
synthetic cyclic two-page site (page A at `/` links to B and to itself,
page B at `/b` links back to A) the walk starting from A fetches exactly
A and then B, once each, for both link orders of A. -/
theorem walk_site_at_most_once :
    (∀ (net : Net) (fuel : Nat) (root : URL) (c : CacheState), c.fetchLog = [] →
      ((walk_site net fuel root c).2.2.fetchLog).Nodup) ∧
    (walk_site netAB 5 urlA cache0).2.2.fetchLog = [urlA, urlB] ∧
    (walk_site netBA 5 urlA cache0).2.2.fetchLog = [urlA, urlB] := by
  refine ⟨?_, by decide, by decide⟩
  intro net fuel root c hlog
  apply walk_site_fetchLog_Nodup
  constructor
  · rw [hlog]; exact List.nodup_nil
  · intro u hu; rw [hlog] at hu; cases hu

/-- Witness for `walk_site_at_most_once` at a concrete run. -/
theorem walk_site_at_most_once_witness :
    ((walk_site netAB 5 urlA cache0).2.2.fetchLog).Nodup :=
  walk_site_at_most_once.1 netAB 5 urlA cache0 rfl

/-- C2: when no artifact for the URL exists yet, two successive calls of
`PageCache.get_page` return the same (hence content-equal) page; the
first call performs exactly one network fetch (the fetch log grows by
exactly that URL) and the second call is served entirely from the
on-disk artifact: it returns the identical page and leaves the state
untouched, performing no fetch. -/
theorem get_page_idempotent (net : Net) (c : CacheState) (u : URL) (r : Response)
    (habs : diskLookup c.disk u = none) (hnet : net u = some r) :
    PageCache.get_page net c u =
      (.ok { url := u, response := r },
       { disk := diskWrite c.disk u (.valid { url := u, response := r }),
         fetchLog := c.fetchLog ++ [u] }) ∧
    PageCache.get_page net
      { disk := diskWrite c.disk u (.valid { url := u, response := r }),
        fetchLog := c.fetchLog ++ [u] } u =
      (.ok { url := u, response := r },
       { disk := diskWrite c.disk u (.valid { url := u, response := r }),
         fetchLog := c.fetchLog ++ [u] }) := by
  constructor
  · rw [get_page_of_miss net c u habs, fetchAndStore_of_netOk net c u r hnet]
  · exact get_page_of_hit net _ u _ (by simp [diskLookup_write])

/-- Witness for `get_page_idempotent` on a fresh cache. -/
theorem get_page_idempotent_witness :
    PageCache.get_page netAB cache0 urlA =
      (.ok pageA,
       { disk := diskWrite cache0.disk urlA (.valid pageA), fetchLog := [urlA] }) ∧
    PageCache.get_page netAB
      { disk := diskWrite cache0.disk urlA (.valid pageA), fetchLog := [urlA] } urlA =
      (.ok pageA,
       { disk := diskWrite cache0.disk urlA (.valid pageA), fetchLog := [urlA] }) :=
  get_page_idempotent netAB cache0 urlA respA rfl (by decide)

/-- C3: when the artifact for the URL is corrupt (deserialization
raises), `PageCache.get_page` deletes the corrupt artifact, re-fetches
the URL over the network (the fetch log grows by the URL), returns the
fresh page built from the network response, and leaves a valid artifact
holding that page on disk; the corruption is never fatal. -/
theorem get_page_corruption_recovery (net : Net) (c : CacheState) (u : URL)
    (r : Response) (hcor : diskLookup c.disk u = some .corrupt)
    (hnet : net u = some r) :
    PageCache.get_page net c u =
      (.ok { url := u, response := r },
       { disk := diskWrite (diskErase c.disk u) u (.valid { url := u, response := r }),
         fetchLog := c.fetchLog ++ [u] }) ∧
    diskLookup (diskWrite (diskErase c.disk u) u (.valid { url := u, response := r })) u
      = some (.valid { url := u, response := r }) := by
  constructor
  · rw [get_page_of_corrupt net c u hcor, fetchAndStore_of_netOk net _ u r hnet]
  · simp [diskLookup_write]

/-- Witness for `get_page_corruption_recovery` on a cache whose only
artifact is corrupt. -/
theorem get_page_corruption_recovery_witness :
    PageCache.get_page netAB corruptCache urlA =
      (.ok pageA,
       { disk := diskWrite (diskErase corruptCache.disk urlA) urlA (.valid pageA),
         fetchLog := [urlA] }) ∧
    diskLookup (diskWrite (diskErase corruptCache.disk urlA) urlA (.valid pageA)) urlA
      = some (.valid pageA) :=
  get_page_corruption_recovery netAB corruptCache urlA respA (by decide) (by decide)

/-- C4 counterexample: on a site whose root links to `/bad`, whose fetch
raises, the walk does NOT absorb the failure into a sentinel page: it
aborts with the propagated network exception, and the page map holds no
entry at all for the failed URL.  This refutes the claim that any
per-page fetch failure for a discovered URL is absorbed and encoded in
the data model so the crawl always completes. -/
theorem fetch_failure_aborts_cex :
    (walk_site netBroken 5 urlA cache0).1 = .error (.netError urlBad) ∧
    pagesLookup (walk_site netBroken 5 urlA cache0).2.1 urlBad = none := by
  exact ⟨by decide, by decide⟩

/-- C4 amended: a network-fetch failure for a discovered URL is NOT
absorbed: it propagates as an exception that aborts the whole walk (so
the top-level report never starts), the failed URL gets no sentinel page
in the page map, and the network exception is the only exception a walk
can raise (the cache re-read error is unreachable). -/
theorem fetch_failure_propagates :
    (∀ (net : Net) (fuel : Nat) (root : URL) (c : CacheState) (u : URL)
      (st : Pages) (c1 : CacheState),
      walk_site net fuel root c = (.error (.netError u), st, c1) →
        net u = none ∧ pagesLookup st u = none) ∧
    (∀ (net : Net) (fuel : Nat) (root : URL) (c : CacheState)
      (st : Pages) (c1 : CacheState),
      walk_site net fuel root c ≠ (.error .loadError, st, c1)) := by
  constructor
  · intro net fuel root c u st c1 h
    exact walk_site_error net fuel root c (.netError u) st c1 h
  · intro net fuel root c st c1 h
    exact walk_site_error net fuel root c .loadError st c1 h

/-- Witness for `fetch_failure_propagates` at the concrete broken site. -/
theorem fetch_failure_propagates_witness :
    netBroken urlBad = none ∧
    pagesLookup (walk_site netBroken 5 urlA cache0).2.1 urlBad = none :=
  fetch_failure_propagates.1 netBroken 5 urlA cache0 urlBad
    (walk_site netBroken 5 urlA cache0).2.1
    (walk_site netBroken 5 urlA cache0).2.2 (by decide)

/-- C5 counterexample: URL equality does not collapse `..` segments: the
URL built from the raw path `/a/b/../c` differs from the URL built from
`/a/c` (with equal host and scheme), because `pathlib` keeps `..`
segments. -/
theorem url_identity_cex :
    ({ host := "example.com", path := parsePath "/a/b/../c" } : URL) ≠
      { host := "example.com", path := parsePath "/a/c" } := by
  decide

/-- C5 amended: URL equality holds iff host, stored path and scheme are
componentwise equal, where building the stored path from a raw string
collapses `.` segments and duplicate separators but preserves `..`
segments: `/a/./b//c` builds the same URL as `/a/b/c`, while
`/a/b/../c` and `/a/c` build different URLs. -/
theorem url_identity_componentwise :
    (∀ (h1 h2 : String) (p1 p2 : PPath) (s1 s2 : String),
      ({ host := h1, path := p1, scheme := s1 } : URL) =
          { host := h2, path := p2, scheme := s2 } ↔
        (h1 = h2 ∧ p1 = p2 ∧ s1 = s2)) ∧
    (({ host := "example.com", path := parsePath "/a/./b//c" } : URL) =
      { host := "example.com", path := parsePath "/a/b/c" }) ∧
    (({ host := "example.com", path := parsePath "/a/b/../c" } : URL) ≠
      { host := "example.com", path := parsePath "/a/c" }) := by
  refine ⟨?_, by decide, by decide⟩
  intro h1 h2 p1 p2 s1 s2
  constructor
  · intro h; cases h; exact ⟨rfl, rfl, rfl⟩
  · intro h; rw [h.1, h.2.1, h.2.2]

/-- Witness for `url_identity_componentwise`: componentwise equality at a
concrete triple gives URL equality. -/
theorem url_identity_componentwise_witness :
    ({ host := "example.com", path := parsePath "/a", scheme := "https" } : URL) =
      { host := "example.com", path := parsePath "/a", scheme := "https" } :=
  (url_identity_componentwise.1 "example.com" "example.com"
    (parsePath "/a") (parsePath "/a") "https" "https").mpr ⟨rfl, rfl, rfl⟩

/-- C6 counterexample: `join_path` does not resolve `..` in a relative
href: joining `../c` onto the URL with path `/a/b` yields the URL with
path `/a/b/../c`, not `/a/c`. -/
theorem join_path_relative_cex :
    ({ host := "example.com", path := parsePath "/a/b" } : URL).join_path
        (parsePath "../c") ≠
      { host := "example.com", path := parsePath "/a/c" } := by
  decide

/-- C6 amended: `join_path` with an absolute path replaces the current
path entirely (keeping the host, scheme reset to the default); with a
relative path it appends the segments verbatim, without resolving `..`
segments, exactly as the `pathlib` `/` operator does.  In particular
joining `../c` onto `/a/b` yields `/a/b/../c`. -/
theorem join_path_resolution :
    (∀ (u : URL) (p : PPath),
      (p.absolute = true → u.join_path p = { host := u.host, path := p }) ∧
      (p.absolute = false → u.join_path p =
        { host := u.host,
          path := { absolute := u.path.absolute,
                    segments := u.path.segments ++ p.segments } })) ∧
    (({ host := "example.com", path := parsePath "/a/b" } : URL).join_path
        (parsePath "../c") =
      { host := "example.com", path := parsePath "/a/b/../c" }) := by
  refine ⟨?_, by decide⟩
  intro u p
  constructor
  · intro hp; simp [URL.join_path, PPath.join, hp]
  · intro hp; simp [URL.join_path, PPath.join, hp]

/-- Witness for `join_path_resolution` at concrete absolute and relative
href paths. -/
theorem join_path_resolution_witness :
    ({ host := "example.com", path := parsePath "/a/b" } : URL).join_path
        (parsePath "/x/y") =
      { host := "example.com", path := parsePath "/x/y" } :=
  (join_path_resolution.1 { host := "example.com", path := parsePath "/a/b" }
    (parsePath "/x/y")).1 (by decide)

/-- C7 counterexample: `set_host` does not preserve the scheme: the
source rebuilds the URL without passing the scheme through, so it falls
back to the default `"https"`. -/
theorem set_host_scheme_cex :
    (({ host := "a.example", path := parsePath "/", scheme := "http" } : URL).set_host
        "b.example").scheme ≠ "http" := by
  decide

/-- C7 amended: `u.set_host h` yields the URL with host `h`, the path of
`u`, and the DEFAULT scheme `"https"` (so the scheme of `u` is preserved
exactly when it already is `"https"`); `u` itself is unchanged (URL
values are immutable). -/
theorem set_host_frame :
    ∀ (u : URL) (h : String),
      (u.set_host h).host = h ∧ (u.set_host h).path = u.path ∧
        (u.set_host h).scheme = "https" :=
  fun _ _ => ⟨rfl, rfl, rfl⟩

/-- C8: link extraction yields only same-host URLs: anchors without an
href attribute are ignored, hrefs whose parsed host differs from the host
of the page are skipped, hrefs whose path contains `@` are skipped, and
every yielded URL is the page URL joined with the normalized href path
(hence on the same host).  The concrete page carrying one href-less
anchor, one anchor to `otherhost.example` and one anchor whose path
embeds a mailto-style `@` yields no URL at all. -/
theorem get_urls_same_host :
    (∀ (p : Page) (u : URL), u ∈ p.get_urls →
      u.host = p.url.host ∧
      ∃ a ∈ p.response.anchors, ∃ ref, a.href = some ref ∧
        (ref.host = none ∨ ref.host = some p.url.host) ∧
        ref.path.data.contains '@' = false ∧
        u = p.url.join_path (parsePath (furlNormalize ref.path))) ∧
    pageBad.get_urls = [] := by
  refine ⟨?_, by decide⟩
  intro p u hu
  rw [Page.get_urls, List.mem_filterMap] at hu
  obtain ⟨a, ha, hfa⟩ := hu
  cases haf : a.href with
  | none => rw [haf] at hfa; cases hfa
  | some ref =>
    rw [haf] at hfa
    simp only [Page.hrefURL] at hfa
    by_cases h1 : ref.host ≠ none ∧ ref.host ≠ some p.url.host
    · rw [if_pos h1] at hfa; cases hfa
    · rw [if_neg h1] at hfa
      by_cases h2 : ref.path.data.contains '@' = true
      · rw [if_pos h2] at hfa; cases hfa
      · rw [if_neg h2] at hfa
        injection hfa with hfa
        have hhost : ref.host = none ∨ ref.host = some p.url.host := by
          rcases not_and_or.mp h1 with h | h
          · exact Or.inl (not_not.mp h)
          · exact Or.inr (not_not.mp h)
        have hat : ref.path.data.contains '@' = false := by
          simpa using h2
        subst hfa
        exact ⟨rfl, a, ha, ref, haf, hhost, hat, rfl⟩

/-- Witness for `get_urls_same_host` at a page with one extractable
link. -/
theorem get_urls_same_host_witness : urlB.host = pageGood.url.host :=
  (get_urls_same_host.1 pageGood urlB (by decide)).1

/-- C9: provided every artifact on disk is coherent (was written for its
own URL), a successful comparison run emits exactly one row per entry of
the walked page map, in its iteration order; the i-th row carries the
textual original URL, the original status code and the original path of
the i-th page, and its target URL and target path columns are exactly
those of the original URL rehosted on the target host via `set_host`.
The target page itself is fetched through the same page cache inside
`compareRows`, and its status code fills the remaining column. -/
theorem compare_rows_spec (net : Net) (th : String) :
    ∀ (pages : Pages) (c : CacheState), DiskWF c.disk →
      ∀ (rows : List Row) (c1 : CacheState),
        compareRows net th pages c = (.ok rows, c1) →
        rows.length = pages.length ∧
        (∀ (i : Nat) (hp : i < pages.length) (hr : i < rows.length),
          (rows.get ⟨i, hr⟩).original = (pages.get ⟨i, hp⟩).2.url.furlStr ∧
          (rows.get ⟨i, hr⟩).original_status_code = (pages.get ⟨i, hp⟩).2.status_code ∧
          (rows.get ⟨i, hr⟩).original_path = (pages.get ⟨i, hp⟩).2.url.path.render ∧
          (rows.get ⟨i, hr⟩).target = ((pages.get ⟨i, hp⟩).2.url.set_host th).furlStr ∧
          (rows.get ⟨i, hr⟩).target_path
            = ((pages.get ⟨i, hp⟩).2.url.set_host th).path.render) := by
  intro pages
  induction pages with
  | nil =>
    intro c hWF rows c1 h
    rw [show compareRows net th [] c = (.ok [], c) from rfl] at h
    simp only [Prod.mk.injEq] at h
    obtain ⟨h1, h2⟩ := h
    injection h1 with h1
    subst h1
    exact ⟨rfl, fun i hp hr => absurd hp (Nat.not_lt_zero i)⟩
  | cons kp rest ih =>
    obtain ⟨k, page⟩ := kp
    intro c hWF rows c1 h
    have hgpfacts := get_page_DiskWF net c (page.url.set_host th) hWF
    rcases hgp : PageCache.get_page net c (page.url.set_host th) with ⟨r, cc⟩
    rw [hgp] at hgpfacts
    cases r with
    | error e =>
      rw [show compareRows net th ((k, page) :: rest) c = (.error e, cc) by
        simp [compareRows, hgp]] at h
      exact Except.noConfusion (congrArg Prod.fst h)
    | ok tp =>
      have htp : tp.url = page.url.set_host th := hgpfacts.2 tp rfl
      rcases hrec : compareRows net th rest cc with ⟨rr, c2⟩
      cases rr with
      | error e =>
        rw [show compareRows net th ((k, page) :: rest) c = (.error e, c2) by
          simp [compareRows, hgp, hrec]] at h
        exact Except.noConfusion (congrArg Prod.fst h)
      | ok rows2 =>
        rw [show compareRows net th ((k, page) :: rest) c =
            (.ok ({ original := page.url.furlStr, target := tp.url.furlStr,
                    original_status_code := page.status_code,
                    target_status_code := tp.status_code,
                    original_path := page.url.path.render,
                    target_path := tp.url.path.render } :: rows2), c2) by
          simp [compareRows, hgp, hrec]] at h
        simp only [Prod.mk.injEq] at h
        obtain ⟨h1, h2⟩ := h
        injection h1 with h1
        subst h1
        obtain ⟨hlen, hidx⟩ := ih cc hgpfacts.1 rows2 c2 hrec
        constructor
        · simp [hlen]
        · intro i hp hr
          cases i with
          | zero =>
            exact ⟨rfl, rfl, rfl, congrArg URL.furlStr htp,
              congrArg (fun v => v.path.render) htp⟩
          | succ j =>
            have hpj : j < rest.length := by
              simp only [List.length_cons] at hp; omega
            have hrj : j < rows2.length := by
              simp only [List.length_cons] at hr; omega
            simp only [List.get_cons_succ]
            exact hidx j hpj hrj

/-- Witness for `compare_rows_spec` at a concrete one-page comparison
run. -/
theorem compare_rows_spec_witness : [rowA].length = pagesCmp.length :=
  (compare_rows_spec netCmp targetHostEx pagesCmp cache0
    (fun u p hu => Option.noConfusion hu) [rowA]
    { disk := [(urlAT, .valid { url := urlAT, response := resp404 })],
      fetchLog := [urlAT] }
    (by decide)).1

/-- C10: assuming every artifact on disk was written by
`PageCache.get_page` for the same URL value (`DiskWF`), a successful
cache fetch returns a page whose url field equals the requested URL, and
preserves that assumption; consequently every key of the page map a walk
builds equals the url field of the page it maps to (`process_page`
inserts under `new_page.url`, which equals the candidate URL whose
absence it just checked). -/
theorem page_map_coherence :
    (∀ (net : Net) (c : CacheState) (u : URL), DiskWF c.disk →
      ∀ (p : Page) (c1 : CacheState),
        PageCache.get_page net c u = (.ok p, c1) → p.url = u ∧ DiskWF c1.disk) ∧
    (∀ (net : Net) (fuel : Nat) (root : URL) (c : CacheState), DiskWF c.disk →
      ∀ kp ∈ (walk_site net fuel root c).2.1, kp.1 = kp.2.url) := by
  constructor
  · intro net c u hWF p c1 h
    have hfacts := get_page_DiskWF net c u hWF
    rw [h] at hfacts
    exact ⟨hfacts.2 p rfl, hfacts.1⟩
  · intro net fuel root c hWF
    have hfacts := get_page_DiskWF net c root hWF
    rcases hgp : PageCache.get_page net c root with ⟨r, cc⟩
    rw [hgp] at hfacts
    cases r with
    | error e =>
      rw [show walk_site net fuel root c = (.error e, [], cc) by simp [walk_site, hgp]]
      intro kp hkp; cases hkp
    | ok rootPage =>
      rw [show walk_site net fuel root c
          = process_page net fuel (pagesInsert [] rootPage.url rootPage) rootPage cc by
        simp [walk_site, hgp]]
      have hpages0 : PagesWF (pagesInsert [] rootPage.url rootPage) :=
        pagesInsert_WF [] rootPage (fun kp hkp => by cases hkp)
      exact (process_page_WF net fuel _ rootPage cc hfacts.1 hpages0).2

/-- Witness for `page_map_coherence` at a concrete cache fetch. -/
theorem page_map_coherence_witness : pageA.url = urlA :=
  (page_map_coherence.1 netAB cache0 urlA (fun u p hu => Option.noConfusion hu) pageA
    { disk := [(urlA, .valid pageA)], fetchLog := [urlA] } (by decide)).1

end Site404
